import Mathlib

set_option maxRecDepth 10000

/-!
Shallow embedding of the fire-enrich EnrichmentTable component
(enrichment-table source file): the client-side reconciliation state for a
streaming enrichment session — the result store keyed by row index, the
session status machine, the shared message log, reveal-timing state, and the
conversational-query request builder.

JavaScript `Map` objects are modelled as association lists where `set` on an
existing key replaces the value in place (preserving insertion order) and on a
fresh key appends; `Map.get` is the first matching key; `Map.size` is the list
length (keys are unique in every state the component constructs). `Set`
objects are lists with membership-guarded insertion. `Date.now()` is an
explicit `now` field of the state, advanced only by the timer semantics.
-/

/-- JS `Map.get`: value at the first matching key, if any. -/
def mapGet {κ α : Type} [DecidableEq κ] : List (κ × α) → κ → Option α
  | [], _ => none
  | (k', v') :: rest, k => if k' = k then some v' else mapGet rest k

/-- JS `Map.set`: replace the value at an existing key in place, else append. -/
def mapSet {κ α : Type} [DecidableEq κ] : List (κ × α) → κ → α → List (κ × α)
  | [], k, v => [(k, v)]
  | (k', v') :: rest, k, v =>
      if k' = k then (k, v) :: rest else (k', v') :: mapSet rest k v

/-- JS `Array.slice(-n)`: the last `n` elements (all of them when shorter). -/
def takeLast {α : Type} (n : Nat) (l : List α) : List α :=
  l.drop (l.length - n)

/-- JS `Set.add`: insert if not already present. -/
def setAdd (l : List String) (x : String) : List String :=
  if x ∈ l then l else l ++ [x]

/-- A JSON-ish value carried in a field enrichment (`value` in the TS type);
`vNull` also stands for `undefined`. -/
inductive Value where
  | vNull
  | vBool (b : Bool)
  | vNum (n : Int)
  | vStr (s : String)
  | vArr (elems : List Value)

/-- JS truthiness of a `Value` (`if (enrichment.value)`): `false`, `0`, the
empty string, and null/undefined are falsy; arrays are objects, hence truthy. -/
def Value.truthy : Value → Bool
  | .vNull => false
  | .vBool b => b
  | .vNum n => n != 0
  | .vStr s => s != ""
  | .vArr _ => true

mutual

/-- `JSON.stringify` on the modelled values (string escaping elided: the
claims under study do not depend on it). -/
def Value.stringify : Value → String
  | .vNull => "null"
  | .vBool b => cond b "true" "false"
  | .vNum n => toString n
  | .vStr s => "\"" ++ s ++ "\""
  | .vArr elems => "[" ++ Value.stringifyList elems ++ "]"

/-- Comma-joined serialization of a list of values. -/
def Value.stringifyList : List Value → String
  | [] => ""
  | [v] => Value.stringify v
  | v :: rest => Value.stringify v ++ "," ++ Value.stringifyList rest

end

/-- One `sourceContext` entry: `{url, snippet}`. -/
structure SourceRef where
  url : String
  snippet : Option String := none

/-- One field's enrichment outcome (`FieldEnrichment` in `@/lib/types`). -/
structure FieldEnrichment where
  value : Value
  confidence : Option ℚ := none
  source : Option String := none
  sourceContext : List SourceRef := []

/-- Row status in a `RowEnrichmentResult`. -/
inductive RStatus where
  | pending
  | processing
  | completed
  | skipped
  | error
deriving DecidableEq

/-- An input row: ordered named string fields. -/
abbrev Row := List (String × String)

/-- Per-row aggregate stored in the result map (`RowEnrichmentResult`). -/
structure RowEnrichmentResult where
  rowIndex : Nat
  originalData : Row
  enrichments : List (String × FieldEnrichment)
  status : RStatus
  error : Option String := none

/-- A requested enrichment field: `{name, displayName, type}`. -/
structure EnrichmentField where
  name : String
  displayName : String
  type : String
deriving DecidableEq

/-- The component props fixed for a session: `rows`, `fields`, `emailColumn`. -/
structure Config where
  rows : List Row
  fields : List EnrichmentField
  emailColumn : Option String
deriving DecidableEq

/-- One entry of the shared message log (`ChatMessage`); `type` is kept as the
literal string the source writes (user / assistant / info / warning / success
or the producer-supplied `messageType` of a progress event). -/
structure ChatMessage where
  id : String
  message : String
  type : String
  timestamp : Nat
  rowIndex : Option Int := none
  sourceUrl : Option String := none
deriving DecidableEq

/-- The session status machine: `"idle" | "processing" | "completed" | "cancelled"`. -/
inductive SStatus where
  | idle
  | processing
  | completed
  | cancelled
deriving DecidableEq

/-- The component state the claims touch: result store, status, current row,
session id, message log, arrival timestamps, shown cells, scheduled
reveal-timeout callbacks (fire time, row index), and the current clock. -/
structure ClientState where
  results : List (Nat × RowEnrichmentResult)
  status : SStatus
  currentRow : Int
  sessionId : Option String
  agentMessages : List ChatMessage
  rowDataArrivalTime : List (Nat × Nat)
  cellsShown : List String
  pendingTimers : List (Nat × Nat)
  now : Nat

/-- Initial `useState` values (clock starts at an arbitrary origin). -/
def initState : ClientState :=
  { results := []
    status := .idle
    currentRow := -1
    sessionId := none
    agentMessages := []
    rowDataArrivalTime := []
    cellsShown := []
    pendingTimers := []
    now := 0 }

/-- A decoded enrichment-stream event (the `data.type` discriminator). -/
inductive Event where
  | session (sessionId : String)
  | pending (rowIndex : Nat)
  | processing (rowIndex : Nat)
  | result (r : RowEnrichmentResult)
  | complete
  | cancelled
  | error (message : String)
  | agentProgress (message : String) (messageType : String)
      (rowIndex : Option Int) (sourceUrl : Option String)

/-- Text of the one-time completion notice appended on a `complete` event. -/
def completionNotice : String := "All enrichment tasks completed successfully"

/-- The log entry an `agent_progress` event appends
(its id mixes `Date.now()` with `Math.random()`; the random part is elided). -/
def progressMessageOf (s : ClientState) (message messageType : String)
    (rowIndex : Option Int) (sourceUrl : Option String) : ChatMessage :=
  { id := toString s.now ++ "-r"
    message := message
    type := messageType
    timestamp := s.now
    rowIndex := rowIndex
    sourceUrl := sourceUrl }

/-- The `switch (data.type)` body of the enrichment read loop: one decoded
event applied to the component state. -/
def handleEvent (cfg : Config) (s : ClientState) : Event → ClientState
  | .session sid => { s with sessionId := some sid }
  | .pending ri =>
      if (mapGet s.results ri).isSome then s
      else
        let entry : RowEnrichmentResult :=
          { rowIndex := ri
            originalData := cfg.rows.getD ri []
            enrichments := []
            status := .pending }
        { s with results := mapSet s.results ri entry }
  | .processing ri =>
      let s1 := { s with currentRow := (ri : Int) }
      match mapGet s1.results ri with
      | some existing =>
          let updated : RowEnrichmentResult := { existing with status := .processing }
          { s1 with results := mapSet s1.results ri updated }
      | none => s1
  | .result r =>
      { s with
          results := mapSet s.results r.rowIndex r
          rowDataArrivalTime := mapSet s.rowDataArrivalTime r.rowIndex s.now
          pendingTimers := s.pendingTimers ++ [(s.now + 2500, r.rowIndex)] }
  | .complete =>
      let s1 := { s with status := .completed }
      if s1.agentMessages.any (fun m => m.message == completionNotice) then s1
      else
        { s1 with agentMessages := s1.agentMessages ++
            [{ id := "complete-" ++ toString s.now
               message := completionNotice
               type := "success"
               timestamp := s.now }] }
  | .cancelled => { s with status := .cancelled }
  | .error _ => { s with status := .completed }
  | .agentProgress message messageType ri sourceUrl =>
      let appended := s.agentMessages ++ [progressMessageOf s message messageType ri sourceUrl]
      { s with agentMessages := takeLast 500 appended }

/-- Events of the stream applied in arrival order. -/
def runEvents (cfg : Config) (s : ClientState) (evts : List Event) : ClientState :=
  evts.foldl (handleEvent cfg) s

/-- How the enrichment stream ended: the reader reported done (`clean`), or
the fetch/read loop threw and control reached the catch handler (`failed`). -/
inductive StreamEnd where
  | clean
  | failed
deriving DecidableEq

/-- `startEnrichment`: set status to processing, consume the delivered events,
and — only on the catch path — set status to completed afterwards. -/
def startEnrichmentModel (cfg : Config) (s : ClientState)
    (evts : List Event) (e : StreamEnd) : ClientState :=
  let s2 := runEvents cfg { s with status := .processing } evts
  match e with
  | .clean => s2
  | .failed => { s2 with status := .completed }

/-- Whether an event is one of the terminal kinds (`complete`, `cancelled`, `error`). -/
def isTerminal : Event → Bool
  | .complete => true
  | .cancelled => true
  | .error _ => true
  | _ => false

/-- Outcome of the side-channel DELETE request issued on cancellation. -/
inductive FetchOutcome where
  | ok
  | networkError
deriving DecidableEq

/-- `cancelEnrichment`: when a session id is known, issue the side-channel
request (its outcome swallowed by the catch), then set status cancelled and
reset the current row; with no session id nothing happens. -/
def cancelEnrichment (s : ClientState) (_outcome : FetchOutcome) : ClientState :=
  match s.sessionId with
  | some _ => { s with status := .cancelled, currentRow := -1 }
  | none => s

/-- Cell key `rowIndex-fieldName` used for the shown-cells set. -/
def cellKey (ri : Nat) (fname : String) : String :=
  toString ri ++ "-" ++ fname

/-- `setTimeout` callback of a `result` event: add every cell of the row to
the shown set. -/
def fireCells (cfg : Config) (shown : List String) (ri : Nat) : List String :=
  cfg.fields.foldl (fun acc f => setAdd acc (cellKey ri f.name)) shown

/-- Advance the clock to `t`, firing every scheduled reveal timeout whose fire
time has been reached. -/
def advanceTime (cfg : Config) (s : ClientState) (t : Nat) : ClientState :=
  { s with
      now := t
      cellsShown := (s.pendingTimers.filter (fun p => decide (p.1 ≤ t))).foldl
        (fun acc p => fireCells cfg acc p.2) s.cellsShown
      pendingTimers := s.pendingTimers.filter (fun p => decide (¬ p.1 ≤ t)) }

/-- One step of the interleaved semantics: an enrichment event arrives, or
wall-clock time elapses to an absolute instant. -/
inductive Step where
  | ev (e : Event)
  | elapse (t : Nat)

/-- Apply one step. -/
def doStep (cfg : Config) (s : ClientState) : Step → ClientState
  | .ev e => handleEvent cfg s e
  | .elapse t => advanceTime cfg s t

/-- Apply a sequence of steps. -/
def runSteps (cfg : Config) (s : ClientState) (steps : List Step) : ClientState :=
  steps.foldl (doStep cfg) s

/-- `Math.min(300, 2000 / fields.length)`: with no fields JS division yields
Infinity and the minimum is 300. -/
def delayPerCell (cfg : Config) : ℚ :=
  if cfg.fields.length = 0 then 300
  else min 300 ((2000 : ℚ) / (cfg.fields.length : ℚ))

/-- `getCellAnimationDelay`: 0 when no arrival time is recorded (the JS guard
`!arrivalTime` is also taken by a zero timestamp), else the field position
times the per-cell delay. -/
def getCellAnimationDelay (cfg : Config) (s : ClientState) (ri fi : Nat) : ℚ :=
  match mapGet s.rowDataArrivalTime ri with
  | none => 0
  | some t => if t = 0 then 0 else (fi : ℚ) * delayPerCell cfg

/-- A decoded query-stream event (`data.type` in the chat read loop). -/
inductive ChatStreamEvent where
  | status (message : String) (sourceUrl : Option String)
  | response (message : String)
  | error (message : String)

/-- The chat read loop's appends: `status` becomes an info entry, `response`
an assistant entry, `error` a warning entry; none of them trims the log. -/
def handleChatStreamEvent (s : ClientState) : ChatStreamEvent → ClientState
  | .status message sourceUrl =>
      let m : ChatMessage :=
        { id := "status-" ++ toString s.now ++ "-r"
          message := message
          type := "info"
          timestamp := s.now
          sourceUrl := sourceUrl }
      { s with agentMessages := s.agentMessages ++ [m] }
  | .response message =>
      let m : ChatMessage :=
        { id := "assistant-" ++ toString s.now
          message := message
          type := "assistant"
          timestamp := s.now }
      { s with agentMessages := s.agentMessages ++ [m] }
  | .error message =>
      let m : ChatMessage :=
        { id := "error-" ++ toString s.now
          message := message
          type := "warning"
          timestamp := s.now }
      { s with agentMessages := s.agentMessages ++ [m] }

/-- The optimistic `user` turn appended at the start of `handleChatMessage`. -/
def userMessageOf (s : ClientState) (message : String) : ChatMessage :=
  { id := "user-" ++ toString s.now
    message := message
    type := "user"
    timestamp := s.now }

/-- The row's email: the designated email column's value, else the first
column value (`Object.values(row)[0]`); a missing lookup renders as JS
`undefined` does inside a template string. -/
def rowEmail (cfg : Config) (index : Nat) : String :=
  let row := cfg.rows.getD index []
  match cfg.emailColumn with
  | some col => (mapGet row col).getD "undefined"
  | none => ((row.head?).map Prod.snd).getD "undefined"

/-- The `enrichedData` object built for one row: each enrichment whose value
is truthy contributes its key/value pair, in iteration order. -/
def enrichedDataOf (r : RowEnrichmentResult) : List (String × Value) :=
  r.enrichments.filterMap fun kv =>
    if kv.2.value.truthy then some (kv.1, kv.2.value) else none

/-- The serialized line for one non-pending row:
`Row {index+1} ({email}): {dataPoints or fallback}`. -/
def rowLine (cfg : Config) (index : Nat) (r : RowEnrichmentResult) : String :=
  let email := rowEmail cfg index
  let dataPoints := String.intercalate ", "
    ((enrichedDataOf r).map fun kv => kv.1 ++ ": " ++ kv.2.stringify)
  "Row " ++ toString (index + 1) ++ " (" ++ email ++ "): " ++
    (if dataPoints = "" then "No data enriched yet" else dataPoints)

/-- `tableDataRows`: map every row index to its serialized line, dropping rows
with no stored result or a pending one (`return null` + `.filter(Boolean)`). -/
def tableDataRows (cfg : Config) (results : List (Nat × RowEnrichmentResult)) :
    List String :=
  (List.range cfg.rows.length).filterMap fun index =>
    match mapGet results index with
    | none => none
    | some result =>
        if result.status = .pending then none
        else some (rowLine cfg index result)

/-- `tableDataString`: the formatted table context, empty when no row
qualifies. -/
def tableDataString (cfg : Config) (results : List (Nat × RowEnrichmentResult)) :
    String :=
  let rowsSer := tableDataRows cfg results
  if rowsSer.length > 0 then
    "Enriched Data Table:\n" ++ String.intercalate "\n" rowsSer ++
      "\n\nTotal: " ++ toString rowsSer.length ++ " rows with data"
  else ""

/-- Conversation history derived from a log: user/assistant entries, the last
10 of them, mapped to role/content pairs in order. -/
def conversationHistoryOf (log : List ChatMessage) : List (String × String) :=
  (takeLast 10 (log.filter fun m => m.type == "user" || m.type == "assistant")).map
    fun m => (if m.type == "user" then "user" else "assistant", m.message)

/-- The context object sent with a conversational query. -/
structure ChatContext where
  emailColumn : Option String
  fields : List (String × String)
  totalRows : Nat
  processedRows : Nat
  tableData : String

/-- The body of the query request. -/
structure ChatRequest where
  question : String
  context : ChatContext
  conversationHistory : List (String × String)
  sessionId : String

/-- `handleChatMessage` up to the fetch: append the user turn to the log, and
build the request body. The conversation history is computed from the
`agentMessages` value captured by the handler's closure — the log as it was
before the optimistic append — because the React state update is deferred. -/
def buildChatRequest (cfg : Config) (s : ClientState) (message queryId : String) :
    ChatRequest × ClientState :=
  let s1 := { s with agentMessages := s.agentMessages ++ [userMessageOf s message] }
  let req : ChatRequest :=
    { question := message
      context :=
        { emailColumn := cfg.emailColumn
          fields := cfg.fields.map fun f => (f.name, f.displayName)
          totalRows := cfg.rows.length
          processedRows := s.results.length
          tableData := tableDataString cfg s.results }
      conversationHistory := conversationHistoryOf s.agentMessages
      sessionId := queryId }
  (req, s1)

/-- Number of log entries whose message is the completion notice. -/
def countNotice (log : List ChatMessage) : Nat :=
  log.countP fun m => m.message == completionNotice

/-- Whether a row index has a stored, non-pending result. -/
def hasNonPendingResult (results : List (Nat × RowEnrichmentResult)) (i : Nat) :
    Bool :=
  match mapGet results i with
  | none => false
  | some r => !(r.status = .pending : Bool)

/-- The serialized line of a row index, defaulting to the empty string when no
result is stored (only applied under `hasNonPendingResult`). -/
def rowLineAt (cfg : Config) (results : List (Nat × RowEnrichmentResult))
    (i : Nat) : String :=
  match mapGet results i with
  | none => ""
  | some r => rowLine cfg i r

/-- Looking up the key just written by `mapSet` yields the written value. -/
theorem mapGet_mapSet_self {κ α : Type} [DecidableEq κ]
    (m : List (κ × α)) (k : κ) (v : α) : mapGet (mapSet m k v) k = some v := by
  induction m with
  | nil => simp [mapGet, mapSet]
  | cons hd tl ih =>
      obtain ⟨k', v'⟩ := hd
      by_cases hk : k' = k
      · subst hk; simp [mapGet, mapSet]
      · simp [mapGet, mapSet, hk, ih]

/-- `mapSet` on a fresh key leaves every lookup of an existing key alone. -/
theorem mapGet_mapSet_ne {κ α : Type} [DecidableEq κ]
    (m : List (κ × α)) (k k' : κ) (v : α) (h : k ≠ k') :
    mapGet (mapSet m k v) k' = mapGet m k' := by
  induction m with
  | nil => simp [mapGet, mapSet, h]
  | cons hd tl ih =>
      obtain ⟨k0, v0⟩ := hd
      by_cases hk : k0 = k
      · subst hk; simp [mapGet, mapSet, h]
      · simp [mapGet, mapSet, hk, ih]

/-- A session fixture: two rows keyed by an email column, two fields. -/
def cfgA : Config :=
  { rows := [[("email", "a@acme.com")], [("email", "b@beta.io")]]
    fields := [⟨"name", "Name", "string"⟩, ⟨"role", "Role", "string"⟩]
    emailColumn := some "email" }

/-- A prior stored result for row 0 holding a field the next payload lacks. -/
def priorResult : RowEnrichmentResult :=
  { rowIndex := 0
    originalData := [("email", "a@acme.com")]
    enrichments := [("role", { value := .vStr "CTO" })]
    status := .completed }

/-- A replacement payload for row 0 that carries only the `name` field. -/
def newResult : RowEnrichmentResult :=
  { rowIndex := 0
    originalData := [("email", "a@acme.com")]
    enrichments := [("name", { value := .vStr "Ada" })]
    status := .completed }

/-- A state in which row 0 already has the prior result stored. -/
def statePrior : ClientState :=
  { initState with results := [(0, priorResult)], status := .processing, now := 777 }

/-- C1: handling a `result` event replaces the whole stored entry for the
event's rowIndex with the event's payload — fields present before but absent
from the new payload are gone — and records the arrival timestamp (the clock
at the moment of replacement) for that rowIndex. -/
theorem result_replaces_whole_entry (cfg : Config) (s : ClientState)
    (r : RowEnrichmentResult) :
    mapGet (handleEvent cfg s (.result r)).results r.rowIndex = some r ∧
    mapGet (handleEvent cfg s (.result r)).rowDataArrivalTime r.rowIndex = some s.now ∧
    (∀ fname : String, mapGet r.enrichments fname = none →
      ∀ r' : RowEnrichmentResult,
        mapGet (handleEvent cfg s (.result r)).results r.rowIndex = some r' →
        mapGet r'.enrichments fname = none) := by
  refine ⟨?_, ?_, ?_⟩
  · simp [handleEvent, mapGet_mapSet_self]
  · simp [handleEvent, mapGet_mapSet_self]
  · intro fname h r' hr'
    simp only [handleEvent] at hr'
    rw [mapGet_mapSet_self] at hr'
    cases hr'
    exact h

/-- C1 witness: replacing row 0's prior entry (which held `role`) with a
payload holding only `name` leaves no `role` field in the stored entry, and
the arrival timestamp is the replacement-time clock. -/
theorem result_replaces_whole_entry_witness :
    mapGet (handleEvent cfgA statePrior (.result newResult)).results 0 = some newResult ∧
    mapGet (handleEvent cfgA statePrior (.result newResult)).rowDataArrivalTime 0 = some 777 ∧
    mapGet newResult.enrichments "role" = none := by
  refine ⟨(result_replaces_whole_entry cfgA statePrior newResult).1,
    (result_replaces_whole_entry cfgA statePrior newResult).2.1, ?_⟩
  have h3 := (result_replaces_whole_entry cfgA statePrior newResult).2.2 "role" rfl
  exact h3 newResult (result_replaces_whole_entry cfgA statePrior newResult).1

/-- The placeholder entry a first `pending` event inserts. -/
def pendingEntry (cfg : Config) (ri : Nat) : RowEnrichmentResult :=
  { rowIndex := ri
    originalData := cfg.rows.getD ri []
    enrichments := []
    status := .pending }

/-- C2: the first `pending` event for a rowIndex creates a pending entry with
empty enrichments; a `pending` event for a rowIndex that already has an entry
(whatever later events made of it) leaves the whole state unchanged; hence a
second consecutive `pending` for the same rowIndex is a no-op. -/
theorem pending_only_first_creates (cfg : Config) (s : ClientState) (ri : Nat) :
    (mapGet s.results ri = none →
      mapGet (handleEvent cfg s (.pending ri)).results ri = some (pendingEntry cfg ri)) ∧
    ((mapGet s.results ri).isSome → handleEvent cfg s (.pending ri) = s) ∧
    handleEvent cfg (handleEvent cfg s (.pending ri)) (.pending ri) =
      handleEvent cfg s (.pending ri) := by
  refine ⟨?_, ?_, ?_⟩
  · intro h
    simp [handleEvent, h, pendingEntry, mapGet_mapSet_self]
  · intro h
    simp [handleEvent, h]
  · by_cases h : (mapGet s.results ri).isSome
    · simp [handleEvent, h]
    · have hnone : mapGet s.results ri = none := by
        cases hm : mapGet s.results ri with
        | none => rfl
        | some v => rw [hm] at h; simp at h
      have hsome : (mapGet (handleEvent cfg s (.pending ri)).results ri).isSome := by
        simp [handleEvent, hnone, mapGet_mapSet_self]
      conv_lhs => rw [handleEvent]
      simp [hsome]

/-- C2 witness: on the empty store the first `pending(1)` creates the
placeholder; on a store whose row 0 entry was since replaced by a `result`,
`pending(0)` leaves the state untouched. -/
theorem pending_only_first_creates_witness :
    mapGet (handleEvent cfgA initState (.pending 1)).results 1 = some (pendingEntry cfgA 1) ∧
    handleEvent cfgA statePrior (.pending 0) = statePrior := by
  exact ⟨(pending_only_first_creates cfgA initState 1).1 rfl,
    (pending_only_first_creates cfgA statePrior 0).2.1 (by simp [statePrior, mapGet])⟩

/-- C5: with the session id captured from the stream's first event, invoking
cancellation while processing sets the local status to `cancelled`, for either
outcome of the side-channel DELETE request — the network failure is swallowed. -/
theorem cancel_is_locally_authoritative (s : ClientState) (o : FetchOutcome)
    (sid : String) (hsid : s.sessionId = some sid)
    (hst : s.status = .processing) :
    (cancelEnrichment s o).status = .cancelled := by
  unfold cancelEnrichment
  rw [hsid]

/-- C5 witness: a processing state with session id "sess-1" whose side-channel
cancel fails with a network error still ends up `cancelled`. -/
theorem cancel_is_locally_authoritative_witness :
    (cancelEnrichment { initState with sessionId := some "sess-1", status := .processing }
      FetchOutcome.networkError).status = .cancelled :=
  cancel_is_locally_authoritative
    { initState with sessionId := some "sess-1", status := .processing }
    FetchOutcome.networkError "sess-1" rfl rfl

/-- The completion-notice log entry built at clock `s.now`. -/
def noticeMessageOf (s : ClientState) : ChatMessage :=
  { id := "complete-" ++ toString s.now
    message := completionNotice
    type := "success"
    timestamp := s.now }

/-- On `complete`, a log already holding the notice is left unchanged. -/
theorem complete_log_unchanged (cfg : Config) (s : ClientState)
    (h : ∃ x ∈ s.agentMessages, x.message = completionNotice) :
    (handleEvent cfg s .complete).agentMessages = s.agentMessages := by
  simp [handleEvent, h]

/-- On `complete`, a log not holding the notice gets it appended once. -/
theorem complete_log_appends (cfg : Config) (s : ClientState)
    (h : ¬ ∃ x ∈ s.agentMessages, x.message = completionNotice) :
    (handleEvent cfg s .complete).agentMessages =
      s.agentMessages ++ [noticeMessageOf s] := by
  simp [handleEvent, noticeMessageOf, h]

/-- C6: when the log holds no completion notice, handling `complete` twice
leaves exactly one entry whose message is the notice text; when a notice is
already present, handling `complete` appends nothing (the log is unchanged). -/
theorem completion_notice_idempotent (cfg : Config) (s : ClientState) :
    (countNotice s.agentMessages = 0 →
      countNotice (handleEvent cfg (handleEvent cfg s .complete) .complete).agentMessages = 1) ∧
    (0 < countNotice s.agentMessages →
      (handleEvent cfg s .complete).agentMessages = s.agentMessages) := by
  constructor
  · intro h0
    have hno : ¬ ∃ x ∈ s.agentMessages, x.message = completionNotice := by
      rintro ⟨x, hx, hxx⟩
      have := (List.countP_eq_zero).mp h0 x hx
      simp [hxx] at this
    have hlog1 := complete_log_appends cfg s hno
    have hyes : ∃ x ∈ (handleEvent cfg s .complete).agentMessages,
        x.message = completionNotice := by
      rw [hlog1]
      exact ⟨noticeMessageOf s,
        List.mem_append_right _ (List.mem_singleton.mpr rfl), rfl⟩
    rw [complete_log_unchanged cfg (handleEvent cfg s .complete) hyes, hlog1]
    unfold countNotice at h0 ⊢
    rw [List.countP_append, h0]
    simp [noticeMessageOf]
  · intro hpos
    have hyes : ∃ x ∈ s.agentMessages, x.message = completionNotice := by
      obtain ⟨m, hm, hp⟩ := List.countP_pos_iff.mp hpos
      exact ⟨m, hm, by simpa using hp⟩
    exact complete_log_unchanged cfg s hyes

/-- C6 witness: from an empty log two `complete` events leave exactly one
completion notice; with a notice already present the log is unchanged. -/
theorem completion_notice_idempotent_witness :
    countNotice (handleEvent cfgA (handleEvent cfgA initState .complete) .complete).agentMessages = 1 ∧
    (handleEvent cfgA
        { initState with agentMessages :=
            [{ id := "complete-0", message := completionNotice, type := "success", timestamp := 0 }] }
        .complete).agentMessages =
      [{ id := "complete-0", message := completionNotice, type := "success", timestamp := 0 }] := by
  refine ⟨(completion_notice_idempotent cfgA initState).1 rfl, ?_⟩
  exact (completion_notice_idempotent cfgA
    { initState with agentMessages :=
        [{ id := "complete-0", message := completionNotice, type := "success", timestamp := 0 }] }).2
    (by decide)

/-- A filler log entry for building a log already at the 500-entry cap. -/
def filler : ChatMessage := { id := "m", message := "x", type := "info", timestamp := 0 }

/-- A state whose message log already holds exactly 500 entries. -/
def stateFull : ClientState := { initState with agentMessages := List.replicate 500 filler }

/-- C3 counterexample: appending a `user` turn to a 500-entry log leaves 501
entries — the cap is not enforced on that writer. -/
theorem message_log_cap_counterexample :
    ((buildChatRequest cfgA stateFull "hello" "q1").2.agentMessages).length = 501 ∧
    ¬ (501 ≤ 500) := by
  constructor
  · have h : (buildChatRequest cfgA stateFull "hello" "q1").2.agentMessages =
        List.replicate 500 filler ++ [userMessageOf stateFull "hello"] := rfl
    rw [h, List.length_append, List.length_replicate]
    rfl
  · decide

/-- C3 as amended: only the `agent_progress` handler enforces the cap — its
append keeps exactly the most recent 500 entries (oldest evicted first) and
never exceeds 500 — while every other writer appends without trimming: the
user turn, the chat-stream `response`→assistant, `status`→info and
`error`→warning appends, and the completion notice (which, when not
suppressed by an already-present notice, is a plain untrimmed append). -/
theorem message_log_cap_only_agent_progress (cfg : Config) (s : ClientState)
    (message messageType question queryId : String)
    (ri : Option Int) (surl : Option String) :
    (handleEvent cfg s (.agentProgress message messageType ri surl)).agentMessages =
      takeLast 500 (s.agentMessages ++ [progressMessageOf s message messageType ri surl]) ∧
    ((handleEvent cfg s (.agentProgress message messageType ri surl)).agentMessages).length ≤ 500 ∧
    (buildChatRequest cfg s question queryId).2.agentMessages =
      s.agentMessages ++ [userMessageOf s question] ∧
    (handleChatStreamEvent s (.response message)).agentMessages =
      s.agentMessages ++
        [{ id := "assistant-" ++ toString s.now, message := message
           type := "assistant", timestamp := s.now }] ∧
    (handleChatStreamEvent s (.status message surl)).agentMessages =
      s.agentMessages ++
        [{ id := "status-" ++ toString s.now ++ "-r", message := message
           type := "info", timestamp := s.now, sourceUrl := surl }] ∧
    (handleChatStreamEvent s (.error message)).agentMessages =
      s.agentMessages ++
        [{ id := "error-" ++ toString s.now, message := message
           type := "warning", timestamp := s.now }] ∧
    (handleEvent cfg s .complete).agentMessages =
      (if s.agentMessages.any (fun m => m.message == completionNotice) then s.agentMessages
       else s.agentMessages ++ [noticeMessageOf s]) := by
  refine ⟨rfl, ?_, rfl, rfl, rfl, rfl, ?_⟩
  · show (takeLast 500 (s.agentMessages ++ [progressMessageOf s message messageType ri surl])).length ≤ 500
    rw [takeLast, List.length_drop]
    omega
  · by_cases hb : (s.agentMessages.any fun m => m.message == completionNotice) = true
    · rw [if_pos hb]
      have hex : ∃ x ∈ s.agentMessages, x.message = completionNotice := by
        simpa using hb
      exact complete_log_unchanged cfg s hex
    · rw [if_neg hb]
      have hnex : ¬ ∃ x ∈ s.agentMessages, x.message = completionNotice := by
        intro hx
        exact hb (by simpa using hx)
      exact complete_log_appends cfg s hnex

/-- Events that are not terminal never change the session status. -/
theorem status_preserved_of_nonterminal (cfg : Config) (s : ClientState) (e : Event)
    (h : isTerminal e = false) : (handleEvent cfg s e).status = s.status := by
  cases e with
  | session sid => rfl
  | pending ri =>
      dsimp only [handleEvent]
      split
      · rfl
      · rfl
  | processing ri =>
      dsimp only [handleEvent]
      split
      · rfl
      · rfl
  | result r => rfl
  | complete => simp [isTerminal] at h
  | cancelled => simp [isTerminal] at h
  | error m => simp [isTerminal] at h
  | agentProgress a b c d => rfl

/-- A run of non-terminal events preserves the session status. -/
theorem runEvents_status_preserved (cfg : Config) (evts : List Event) :
    ∀ s : ClientState, (∀ e ∈ evts, isTerminal e = false) →
      (runEvents cfg s evts).status = s.status := by
  induction evts with
  | nil => intro s _; rfl
  | cons e rest ih =>
      intro s h
      have h1 : isTerminal e = false := h e (List.mem_cons_self e rest)
      have h2 : ∀ e' ∈ rest, isTerminal e' = false :=
        fun e' he' => h e' (List.mem_cons_of_mem e he')
      show (runEvents cfg (handleEvent cfg s e) rest).status = s.status
      rw [ih (handleEvent cfg s e) h2, status_preserved_of_nonterminal cfg s e h1]

/-- C4 counterexample: an enrichment stream delivering no events that ends
cleanly (the reader reports done) leaves the session status `processing`, not
`completed`. -/
theorem endofstream_counterexample :
    (startEnrichmentModel cfgA initState [] .clean).status = .processing ∧
    SStatus.processing ≠ SStatus.completed := ⟨rfl, by decide⟩

/-- C4 as amended: when the stream ends cleanly without a terminal event
(`complete`, `cancelled`, `error`) the session status remains `processing`;
only when the fetch or read loop throws does the catch handler set the status
to `completed`. -/
theorem endofstream_without_terminal (cfg : Config) (s : ClientState)
    (evts : List Event) (h : ∀ e ∈ evts, isTerminal e = false) :
    (startEnrichmentModel cfg s evts .clean).status = .processing ∧
    (startEnrichmentModel cfg s evts .failed).status = .completed := by
  constructor
  · exact runEvents_status_preserved cfg evts { s with status := .processing } h
  · rfl

/-- C4 amended witness: a clean end after a lone `pending` event leaves the
status `processing`; the throwing path ends `completed`. -/
theorem endofstream_without_terminal_witness :
    (startEnrichmentModel cfgA initState [Event.pending 0] .clean).status = .processing ∧
    (startEnrichmentModel cfgA initState [Event.pending 0] .failed).status = .completed :=
  endofstream_without_terminal cfgA initState [Event.pending 0] (by decide)

/-- `filterMap` by a function that is `some ∘ g` exactly on the `p`-filtered
elements equals filtering by `p` then mapping `g`. -/
theorem filterMap_eq_filter_map {α β : Type} (F : α → Option β) (p : α → Bool)
    (g : α → β) (h : ∀ a, F a = if p a then some (g a) else none) (l : List α) :
    l.filterMap F = (l.filter p).map g := by
  induction l with
  | nil => simp
  | cons a t ih =>
      by_cases hp : p a = true
      · simp [List.filterMap_cons, List.filter_cons, h a, hp, ih]
      · simp [List.filterMap_cons, List.filter_cons, h a, hp, ih]

/-- The serialized snapshot consists of exactly the row indices that hold a
stored, non-pending result, in order, each rendered by `rowLine`. -/
theorem tableDataRows_spec (cfg : Config)
    (results : List (Nat × RowEnrichmentResult)) :
    tableDataRows cfg results =
      ((List.range cfg.rows.length).filter (hasNonPendingResult results)).map
        (rowLineAt cfg results) := by
  unfold tableDataRows
  apply filterMap_eq_filter_map
  intro i
  cases hm : mapGet results i with
  | none => simp [hasNonPendingResult, rowLineAt, hm]
  | some r =>
      by_cases hs : r.status = .pending
      · simp [hasNonPendingResult, rowLineAt, hm, hs]
      · simp [hasNonPendingResult, rowLineAt, hm, hs]

/-- A 5-row session fixture with one requested field. -/
def cfg5 : Config :=
  { rows := [[("email", "r1@x.com")], [("email", "r2@x.com")], [("email", "r3@x.com")],
      [("email", "r4@x.com")], [("email", "r5@x.com")]]
    fields := [⟨"name", "Name", "string"⟩]
    emailColumn := some "email" }

/-- A completed stored result for one of the fixture rows. -/
def doneResult (i : Nat) (em : String) : RowEnrichmentResult :=
  { rowIndex := i
    originalData := [("email", em)]
    enrichments := [("name", { value := .vStr "Z" })]
    status := .completed }

/-- A store where rows 0 and 1 are completed and row 2 is a pending entry. -/
def statePartial : ClientState :=
  { initState with results :=
      [(0, doneResult 0 "r1@x.com"), (1, doneResult 1 "r2@x.com"), (2, pendingEntry cfg5 2)] }

/-- C7 counterexample: with 2 completed rows and a third `pending` store
entry, the context's processedRows is 3 (the store's size), while the number
of rows with a non-pending stored result — what the claim predicts — is 2. -/
theorem chat_context_counterexample :
    (buildChatRequest cfg5 statePartial "How many rows are enriched?" "q2").1.context.processedRows = 3 ∧
    ((List.range cfg5.rows.length).filter (hasNonPendingResult statePartial.results)).length = 2 ∧
    (3 : Nat) ≠ 2 := by
  refine ⟨rfl, by decide, by decide⟩

/-- C7 as amended: the context's processedRows equals the total number of
stored results of any status (the store's size, pending entries included),
and the serialized table snapshot lists exactly the rows whose stored result
is non-pending, in order. -/
theorem chat_context_snapshot (cfg : Config) (s : ClientState)
    (message queryId : String) :
    (buildChatRequest cfg s message queryId).1.context.processedRows = s.results.length ∧
    (buildChatRequest cfg s message queryId).1.context.tableData = tableDataString cfg s.results ∧
    tableDataRows cfg s.results =
      ((List.range cfg.rows.length).filter (hasNonPendingResult s.results)).map
        (rowLineAt cfg s.results) :=
  ⟨rfl, rfl, tableDataRows_spec cfg s.results⟩

/-- C8 counterexample: submitting "hi" on an empty log sends an empty
conversation history, while the history of the log after the optimistic
append — what the claim predicts — contains the just-appended user turn. -/
theorem chat_history_counterexample :
    (buildChatRequest cfgA initState "hi" "q3").1.conversationHistory = [] ∧
    conversationHistoryOf (buildChatRequest cfgA initState "hi" "q3").2.agentMessages =
      [("user", "hi")] ∧
    ([] : List (String × String)) ≠ [("user", "hi")] := by
  refine ⟨rfl, rfl, by decide⟩

/-- C8 as amended: the conversation history sent with a query is the last 10
user/assistant messages of the log as it was before the optimistic append
(the handler's stale closure), mapped to role/content pairs in order — the
just-appended user turn is therefore not part of it, even though the log
itself does gain that turn. -/
theorem chat_history_from_stale_log (cfg : Config) (s : ClientState)
    (message queryId : String) :
    (buildChatRequest cfg s message queryId).1.conversationHistory =
      (takeLast 10 (s.agentMessages.filter fun m =>
        m.type == "user" || m.type == "assistant")).map
        (fun m => (if m.type == "user" then "user" else "assistant", m.message)) ∧
    (buildChatRequest cfg s message queryId).2.agentMessages =
      s.agentMessages ++ [userMessageOf s message] :=
  ⟨rfl, rfl⟩

/-- The `enrichedData` object holds exactly the truthy-valued enrichments. -/
theorem enrichedData_truthy_filter (r : RowEnrichmentResult) :
    enrichedDataOf r =
      (r.enrichments.filter fun kv => kv.2.value.truthy).map
        (fun kv => (kv.1, kv.2.value)) := by
  unfold enrichedDataOf
  apply filterMap_eq_filter_map
  intro kv
  rfl

/-- C10: a field key/value pair of a non-pending row is serialized only when
its value is truthy (false, the empty string, 0 and null are omitted), and a
non-pending stored row all of whose enrichment values are falsy still appears
in the snapshot, rendered with the fallback text "No data enriched yet". -/
theorem snapshot_truthy_values_only (cfg : Config)
    (results : List (Nat × RowEnrichmentResult)) (index : Nat)
    (r : RowEnrichmentResult) (hlt : index < cfg.rows.length)
    (hm : mapGet results index = some r) (hs : r.status ≠ .pending) :
    enrichedDataOf r =
      (r.enrichments.filter fun kv => kv.2.value.truthy).map
        (fun kv => (kv.1, kv.2.value)) ∧
    ((∀ kv ∈ r.enrichments, kv.2.value.truthy = false) →
      rowLine cfg index r =
        "Row " ++ toString (index + 1) ++ " (" ++ rowEmail cfg index ++
          "): " ++ "No data enriched yet") ∧
    rowLine cfg index r ∈ tableDataRows cfg results := by
  refine ⟨enrichedData_truthy_filter r, ?_, ?_⟩
  · intro hall
    have hfilter : (r.enrichments.filter fun kv => kv.2.value.truthy) = [] := by
      rw [List.filter_eq_nil_iff]
      intro kv hkv
      simp [hall kv hkv]
    unfold rowLine
    rw [enrichedData_truthy_filter r, hfilter]
    simp [String.intercalate]
  · unfold tableDataRows
    rw [List.mem_filterMap]
    refine ⟨index, List.mem_range.mpr hlt, ?_⟩
    rw [hm]
    simp [hs]

/-- A completed row whose enrichment values are all falsy. -/
def falsyResult : RowEnrichmentResult :=
  { rowIndex := 3
    originalData := [("email", "r4@x.com")]
    enrichments := [("name", { value := .vStr "" }), ("funded", { value := .vBool false })]
    status := .completed }

/-- A store holding only the all-falsy completed row 3. -/
def stateFalsy : ClientState := { initState with results := [(3, falsyResult)] }

/-- C10 witness: the all-falsy completed row 3 serializes no key/value pair,
renders with the fallback text, and still appears in the snapshot. -/
theorem snapshot_truthy_values_only_witness :
    enrichedDataOf falsyResult = [] ∧
    rowLine cfg5 3 falsyResult = "Row 4 (r4@x.com): No data enriched yet" ∧
    rowLine cfg5 3 falsyResult ∈ tableDataRows cfg5 stateFalsy.results := by
  have h := snapshot_truthy_values_only cfg5 stateFalsy.results 3 falsyResult
    (by decide) rfl (by decide)
  refine ⟨?_, ?_, h.2.2⟩
  · rw [h.1]
    rfl
  · rw [h.2.1 (by decide)]
    rfl

/-- `setAdd` keeps existing members. -/
theorem setAdd_mem (l : List String) (x y : String) (h : y ∈ l) : y ∈ setAdd l x := by
  unfold setAdd
  split
  · exact h
  · exact List.mem_append_left _ h

/-- `setAdd` contains the added element. -/
theorem setAdd_mem_self (l : List String) (x : String) : x ∈ setAdd l x := by
  unfold setAdd
  split
  · assumption
  · exact List.mem_append_right _ (List.mem_singleton.mpr rfl)

/-- `fireCells` keeps existing members. -/
theorem fireCells_mono (fs : List EnrichmentField) (shown : List String) (ri : Nat)
    (c : String) (h : c ∈ shown) :
    c ∈ fs.foldl (fun acc f => setAdd acc (cellKey ri f.name)) shown := by
  induction fs generalizing shown with
  | nil => exact h
  | cons f t ih => exact ih _ (setAdd_mem _ _ _ h)

/-- `fireCells` adds the cell of every field of the row. -/
theorem fireCells_adds (fs : List EnrichmentField) (shown : List String) (ri : Nat)
    (f : EnrichmentField) (hf : f ∈ fs) :
    cellKey ri f.name ∈ fs.foldl (fun acc g => setAdd acc (cellKey ri g.name)) shown := by
  induction fs generalizing shown with
  | nil => cases hf
  | cons g t ih =>
      cases hf with
      | head => exact fireCells_mono t _ ri _ (setAdd_mem_self _ _)
      | tail _ h => exact ih _ h

/-- Folding `fireCells` over fired timers keeps existing members. -/
theorem foldl_fireCells_mono (ps : List (Nat × Nat)) (cfg : Config)
    (shown : List String) (c : String) (h : c ∈ shown) :
    c ∈ ps.foldl (fun acc p => fireCells cfg acc p.2) shown := by
  induction ps generalizing shown with
  | nil => exact h
  | cons q t ih => exact ih _ (fireCells_mono cfg.fields _ _ _ h)

/-- Folding `fireCells` over a list containing a row's fired timer adds every
cell of that row. -/
theorem foldl_fireCells_adds (ps : List (Nat × Nat)) (cfg : Config)
    (shown : List String) (ft ri : Nat) (hp : (ft, ri) ∈ ps)
    (f : EnrichmentField) (hf : f ∈ cfg.fields) :
    cellKey ri f.name ∈ ps.foldl (fun acc p => fireCells cfg acc p.2) shown := by
  induction ps generalizing shown with
  | nil => cases hp
  | cons q t ih =>
      cases hp with
      | head => exact foldl_fireCells_mono t cfg _ _ (fireCells_adds cfg.fields shown ri f hf)
      | tail _ h => exact ih _ h

/-- Advancing the clock keeps every shown cell shown. -/
theorem advanceTime_cells_mono (cfg : Config) (s : ClientState) (t : Nat)
    (c : String) (h : c ∈ s.cellsShown) : c ∈ (advanceTime cfg s t).cellsShown :=
  foldl_fireCells_mono _ cfg _ c h

/-- Advancing the clock past a scheduled timer's fire time marks every cell of
that timer's row shown. -/
theorem advanceTime_fires (cfg : Config) (s : ClientState) (t ft ri : Nat)
    (hp : (ft, ri) ∈ s.pendingTimers) (hle : ft ≤ t)
    (f : EnrichmentField) (hf : f ∈ cfg.fields) :
    cellKey ri f.name ∈ (advanceTime cfg s t).cellsShown := by
  have hmem : (ft, ri) ∈ s.pendingTimers.filter (fun p => decide (p.1 ≤ t)) := by
    rw [List.mem_filter]
    exact ⟨hp, by simpa using hle⟩
  exact foldl_fireCells_adds _ cfg _ ft ri hmem f hf

/-- Enrichment events never remove cells from the shown set. -/
theorem handleEvent_cellsShown (cfg : Config) (s : ClientState) (e : Event) :
    (handleEvent cfg s e).cellsShown = s.cellsShown := by
  cases e with
  | session sid => rfl
  | pending ri =>
      dsimp only [handleEvent]
      split
      · rfl
      · rfl
  | processing ri =>
      dsimp only [handleEvent]
      split
      · rfl
      · rfl
  | result r => rfl
  | complete =>
      dsimp only [handleEvent]
      split
      · rfl
      · rfl
  | cancelled => rfl
  | error m => rfl
  | agentProgress a b c d => rfl

/-- Enrichment events never remove scheduled timers. -/
theorem handleEvent_timers_mono (cfg : Config) (s : ClientState) (e : Event)
    (p : Nat × Nat) (h : p ∈ s.pendingTimers) : p ∈ (handleEvent cfg s e).pendingTimers := by
  cases e with
  | session sid => exact h
  | pending ri =>
      dsimp only [handleEvent]
      split
      · exact h
      · exact h
  | processing ri =>
      dsimp only [handleEvent]
      split
      · exact h
      · exact h
  | result r => exact List.mem_append_left _ h
  | complete =>
      dsimp only [handleEvent]
      split
      · exact h
      · exact h
  | cancelled => exact h
  | error m => exact h
  | agentProgress a b c d => exact h

/-- A row is "armed" for the timer (ft, ri) when that timer is still scheduled
or all of the row's cells are already shown. -/
def rowArmed (cfg : Config) (ft ri : Nat) (s : ClientState) : Prop :=
  (ft, ri) ∈ s.pendingTimers ∨ ∀ f ∈ cfg.fields, cellKey ri f.name ∈ s.cellsShown

/-- Every step — event arrival or time passage — preserves armedness. -/
theorem doStep_preserves_armed (cfg : Config) (ft ri : Nat) (s : ClientState)
    (st : Step) (h : rowArmed cfg ft ri s) : rowArmed cfg ft ri (doStep cfg s st) := by
  cases st with
  | ev e =>
      cases h with
      | inl hp => exact Or.inl (handleEvent_timers_mono cfg s e _ hp)
      | inr hc =>
          refine Or.inr fun f hf => ?_
          show cellKey ri f.name ∈ (handleEvent cfg s e).cellsShown
          rw [handleEvent_cellsShown]
          exact hc f hf
  | elapse t =>
      cases h with
      | inl hp =>
          by_cases hle : ft ≤ t
          · exact Or.inr fun f hf => advanceTime_fires cfg s t ft ri hp hle f hf
          · refine Or.inl ?_
            show (ft, ri) ∈ s.pendingTimers.filter (fun p => decide (¬ p.1 ≤ t))
            rw [List.mem_filter]
            exact ⟨hp, by simpa using hle⟩
      | inr hc => exact Or.inr fun f hf => advanceTime_cells_mono cfg s t _ (hc f hf)

/-- Any sequence of steps preserves armedness. -/
theorem runSteps_preserves_armed (cfg : Config) (ft ri : Nat) (steps : List Step) :
    ∀ s : ClientState, rowArmed cfg ft ri s → rowArmed cfg ft ri (runSteps cfg s steps) := by
  induction steps with
  | nil => intro s h; exact h
  | cons st rest ih =>
      intro s h
      exact ih (doStep cfg s st) (doStep_preserves_armed cfg ft ri s st h)

/-- Steps never remove cells from the shown set. -/
theorem runSteps_cells_mono (cfg : Config) (steps : List Step) :
    ∀ (s : ClientState) (c : String), c ∈ s.cellsShown →
      c ∈ (runSteps cfg s steps).cellsShown := by
  induction steps with
  | nil => intro s c h; exact h
  | cons st rest ih =>
      intro s c h
      refine ih (doStep cfg s st) c ?_
      cases st with
      | ev e => rw [doStep, handleEvent_cellsShown]; exact h
      | elapse t => exact advanceTime_cells_mono cfg s t c h

/-- C9: for a row with a recorded (nonzero) arrival timestamp, the per-cell
stagger delay is the field position times `min(300, 2000/fieldCount)`; with no
recorded arrival timestamp the delay is 0 (revealed immediately); and once the
clock reaches the arrival time plus 2500, every cell of a row whose `result`
arrived then is marked shown, whatever events or time passages intervened, and
shown cells stay shown through any further steps. -/
theorem reveal_timing (cfg : Config) (s : ClientState) (r : RowEnrichmentResult)
    (steps : List Step) (t ri fi T : Nat) (f : EnrichmentField) :
    ((mapGet s.rowDataArrivalTime ri = some T ∧ T ≠ 0 ∧ 0 < cfg.fields.length) →
      getCellAnimationDelay cfg s ri fi =
        (fi : ℚ) * min 300 ((2000 : ℚ) / (cfg.fields.length : ℚ))) ∧
    (mapGet s.rowDataArrivalTime ri = none → getCellAnimationDelay cfg s ri fi = 0) ∧
    (f ∈ cfg.fields → s.now + 2500 ≤ t →
      cellKey r.rowIndex f.name ∈
        (advanceTime cfg (runSteps cfg (handleEvent cfg s (.result r)) steps) t).cellsShown) ∧
    (∀ (c : String) (more : List Step) (s' : ClientState),
      c ∈ s'.cellsShown → c ∈ (runSteps cfg s' more).cellsShown) := by
  refine ⟨?_, ?_, ?_, fun c more s' hc => runSteps_cells_mono cfg more s' c hc⟩
  · rintro ⟨hm, hT, hlen⟩
    unfold getCellAnimationDelay
    rw [hm]
    show (if T = 0 then 0 else (fi : ℚ) * delayPerCell cfg) =
      (fi : ℚ) * min 300 ((2000 : ℚ) / (cfg.fields.length : ℚ))
    rw [if_neg hT]
    unfold delayPerCell
    rw [if_neg (Nat.pos_iff_ne_zero.mp hlen)]
  · intro hm
    unfold getCellAnimationDelay
    rw [hm]

  · intro hf hle
    have harmed : rowArmed cfg (s.now + 2500) r.rowIndex (handleEvent cfg s (.result r)) := by
      refine Or.inl ?_
      show (s.now + 2500, r.rowIndex) ∈ s.pendingTimers ++ [(s.now + 2500, r.rowIndex)]
      exact List.mem_append_right _ (List.mem_singleton.mpr rfl)
    have harmed2 := runSteps_preserves_armed cfg (s.now + 2500) r.rowIndex steps _ harmed
    cases harmed2 with
    | inl hp => exact advanceTime_fires cfg _ t _ _ hp hle f hf
    | inr hc => exact advanceTime_cells_mono cfg _ t _ (hc f hf)

/-- A 4-field session fixture. -/
def cfg4 : Config :=
  { rows := [[("email", "a@x.com")]]
    fields := [⟨"f1", "F1", "string"⟩, ⟨"f2", "F2", "string"⟩,
      ⟨"f3", "F3", "string"⟩, ⟨"f4", "F4", "string"⟩]
    emailColumn := some "email" }

/-- A state whose row 0 data arrived at clock 1000. -/
def stateArrived : ClientState :=
  { initState with rowDataArrivalTime := [(0, 1000)], status := .processing, now := 1000 }

/-- A result payload for row 0 of the 4-field fixture. -/
def result4 : RowEnrichmentResult :=
  { rowIndex := 0
    originalData := [("email", "a@x.com")]
    enrichments := [("f1", { value := .vStr "v1" })]
    status := .completed }

/-- C9 witness: with 4 fields and arrival time 1000, the delay of field index
2 is 2 * min(300, 2000/4) = 600; with no recorded arrival the delay is 0; and
after the row's `result` at clock 1000, an intervening `complete` event and a
clock advance to 3500 = 1000 + 2500, cell `0-f1` is shown. -/
theorem reveal_timing_witness :
    getCellAnimationDelay cfg4 stateArrived 0 2 = 600 ∧
    getCellAnimationDelay cfg4 initState 0 2 = 0 ∧
    cellKey 0 "f1" ∈
      (advanceTime cfg4
        (runSteps cfg4 (handleEvent cfg4 stateArrived (.result result4))
          [Step.ev .complete]) 3500).cellsShown := by
  have h := reveal_timing cfg4 stateArrived result4 [Step.ev .complete] 3500 0 2 1000
    ⟨"f1", "F1", "string"⟩
  have h0 := reveal_timing cfg4 initState result4 [] 3500 0 2 1000 ⟨"f1", "F1", "string"⟩
  refine ⟨?_, h0.2.1 rfl, ?_⟩
  · rw [h.1 ⟨rfl, by decide, by decide⟩]
    have h4 : ((2000 : ℚ) / ((cfg4.fields.length : Nat) : ℚ)) = 500 := by
      norm_num [cfg4]
    rw [h4, min_eq_left (by norm_num : (300 : ℚ) ≤ 500)]
    norm_num
  · exact h.2.2.1 (by decide) (by decide)
